import Mathlib

/-!
Verification of the word-frequency and sentence-boundary logic of
`src/nlp-examples.py`.

The script's own logic (as opposed to calls delegated to the spaCy
pipeline) is:

* `words = [token.text for token in complete_doc if not token.is_stop and not token.is_punct]`
  (lines 201-205), `word_freq = Counter(words)` (line 206),
  `common_words = word_freq.most_common(5)` (line 208) and
  `unique_words = [word for (word, freq) in word_freq.items() if freq == 1]`
  (line 212);
* the pipeline component `set_custom_boundaries` (lines 59-65);
* the model-loading `try/except OSError` block (lines 8-14);
* the global pipeline handles `nlp` (lines 9/14) and `custom_nlp`
  (lines 75 and 120).

`collections.Counter` is a dict subclass: iteration order of its items is
insertion order, i.e. first-seen order of the keys, and `most_common(n)`
is `heapq.nlargest(n, self.items(), key=itemgetter(1))`, which is
documented and implemented as equivalent to a stable descending sort by
count followed by taking the first `n` items (stability is obtained by
decorating each item with its position).  The counter is embedded as an
insertion-ordered association list and `most_common` as a sort of the
position-decorated item list by (count descending, position ascending).
-/

namespace NlpEx

/-- One update step of `Counter(words)`: processing one word `w` of the
iterable increments the count stored for `w`, first inserting `w` at the
end of the (insertion-ordered) key sequence when it is new.  This is the
dict-update semantics of `collections.Counter.__init__`/`_count_elements`. -/
def addWord (c : List (String × Nat)) (w : String) : List (String × Nat) :=
  if c.any (fun p => decide (p.1 = w)) then
    c.map (fun p => if p.1 = w then (p.1, p.2 + 1) else p)
  else
    c ++ [(w, 1)]

/-- `word_freq = Counter(words)` (line 206 of `src/nlp-examples.py`):
a single left-to-right pass over the word list, as an insertion-ordered
association list from word to occurrence count. -/
def counter (ws : List String) : List (String × Nat) :=
  ws.foldl addWord []

/-- Key sequence of an association list, in stored (= insertion) order. -/
def keys (c : List (String × Nat)) : List String :=
  c.map Prod.fst

/-- Total count stored for a key: the sum of the values of all entries
carrying that key (for a well-formed counter there is at most one). -/
def cnt (c : List (String × Nat)) (w : String) : Nat :=
  ((c.filter (fun p => decide (p.1 = w))).map Prod.snd).sum

/-- Sum of all stored counts. -/
def sumCnt (c : List (String × Nat)) : Nat :=
  (c.map Prod.snd).sum

/-- `unique_words = [word for (word, freq) in word_freq.items() if freq == 1]`
(line 212 of `src/nlp-examples.py`). -/
def uniqueWords (ws : List String) : List String :=
  ((counter ws).filter (fun p => decide (p.2 = 1))).map Prod.fst

/-- Position of the first occurrence of a word in a word sequence
(the sequence's length when the word does not occur). -/
def firstOcc : List String → String → Nat
  | [], _ => 0
  | w :: ws, x => if w = x then 0 else firstOcc ws x + 1

theorem mem_keys_iff_any (c : List (String × Nat)) (w : String) :
    c.any (fun p => decide (p.1 = w)) = true ↔ w ∈ keys c := by
  simp [keys, List.any_eq_true, List.mem_map]

theorem keys_addWord_of_mem {c : List (String × Nat)} {w : String}
    (h : w ∈ keys c) : keys (addWord c w) = keys c := by
  unfold addWord
  rw [if_pos ((mem_keys_iff_any c w).mpr h)]
  unfold keys
  rw [List.map_map]
  apply List.map_congr_left
  intro p _
  simp only [Function.comp_apply]
  split <;> rfl

theorem keys_addWord_of_not_mem {c : List (String × Nat)} {w : String}
    (h : w ∉ keys c) : keys (addWord c w) = keys c ++ [w] := by
  unfold addWord
  rw [if_neg]
  · simp [keys]
  · intro hc
    exact h ((mem_keys_iff_any c w).mp hc)

theorem cnt_of_not_mem {c : List (String × Nat)} {w : String}
    (h : w ∉ keys c) : cnt c w = 0 := by
  induction c with
  | nil => rfl
  | cons p c ih =>
    have hpw : ¬ p.1 = w := by
      intro he
      exact h (by simp [keys, he])
    have htail : w ∉ keys c := by
      intro hm
      exact h (by simp [keys] at hm ⊢; exact Or.inr hm)
    simpa [cnt, List.filter_cons, hpw] using ih htail

theorem map_incr_of_not_mem {c : List (String × Nat)} {w : String}
    (h : w ∉ keys c) :
    c.map (fun p => if p.1 = w then (p.1, p.2 + 1) else p) = c := by
  induction c with
  | nil => rfl
  | cons p c ih =>
    have hpw : ¬ p.1 = w := by
      intro he
      exact h (by simp [keys, he])
    have htail : w ∉ keys c := by
      intro hm
      exact h (by simp [keys] at hm ⊢; exact Or.inr hm)
    simp [hpw, ih htail]

theorem cnt_cons (p : String × Nat) (c : List (String × Nat)) (x : String) :
    cnt (p :: c) x = (if p.1 = x then p.2 else 0) + cnt c x := by
  by_cases h : p.1 = x <;> simp [cnt, List.filter_cons, h]

theorem cnt_append (c d : List (String × Nat)) (x : String) :
    cnt (c ++ d) x = cnt c x + cnt d x := by
  simp [cnt, List.filter_append]

theorem keys_cons (p : String × Nat) (c : List (String × Nat)) :
    keys (p :: c) = p.1 :: keys c := rfl

theorem cnt_map_incr {c : List (String × Nat)} {w : String}
    (hnd : (keys c).Nodup) (hw : w ∈ keys c) (x : String) :
    cnt (c.map (fun p => if p.1 = w then (p.1, p.2 + 1) else p)) x
      = cnt c x + if x = w then 1 else 0 := by
  induction c with
  | nil => simp [keys] at hw
  | cons p c ih =>
    rw [keys_cons] at hnd hw
    have hndt : (keys c).Nodup := (List.nodup_cons.mp hnd).2
    by_cases hpw : p.1 = w
    · have hnt : w ∉ keys c := by
        have := (List.nodup_cons.mp hnd).1
        rw [← hpw]; exact this
      have hmap := map_incr_of_not_mem hnt
      have hfp : (if p.1 = w then (p.1, p.2 + 1) else p) = (p.1, p.2 + 1) :=
        if_pos hpw
      by_cases hxw : x = w
      · have h0 : cnt c x = 0 := by rw [hxw]; exact cnt_of_not_mem hnt
        rw [List.map_cons, hmap, hfp, cnt_cons, cnt_cons, h0]
        have hp1x : p.1 = x := by rw [hpw, hxw]
        simp [hp1x, hxw]
      · have hpx : ¬ p.1 = x := by rw [hpw]; exact fun he => hxw he.symm
        have h0 : cnt c x = cnt c x + if x = w then 1 else 0 := by simp [hxw]
        rw [List.map_cons, hmap, hfp, cnt_cons, cnt_cons]
        simp [hpx, hxw]
    · have hwt : w ∈ keys c := by
        rcases List.mem_cons.mp hw with h | h
        · exact absurd h.symm hpw
        · exact h
      have hfp : (if p.1 = w then (p.1, p.2 + 1) else p) = p := if_neg hpw
      rw [List.map_cons, hfp, cnt_cons, cnt_cons, ih hndt hwt]
      omega

theorem sum_map_incr {c : List (String × Nat)} {w : String}
    (hnd : (keys c).Nodup) (hw : w ∈ keys c) :
    sumCnt (c.map (fun p => if p.1 = w then (p.1, p.2 + 1) else p))
      = sumCnt c + 1 := by
  induction c with
  | nil => simp [keys] at hw
  | cons p c ih =>
    rw [keys_cons] at hnd hw
    have hndt : (keys c).Nodup := (List.nodup_cons.mp hnd).2
    by_cases hpw : p.1 = w
    · have hnt : w ∉ keys c := by
        have := (List.nodup_cons.mp hnd).1
        rw [← hpw]; exact this
      have hfp : (if p.1 = w then (p.1, p.2 + 1) else p) = (p.1, p.2 + 1) :=
        if_pos hpw
      rw [List.map_cons, map_incr_of_not_mem hnt, hfp]
      simp [sumCnt]
      omega
    · have hwt : w ∈ keys c := by
        rcases List.mem_cons.mp hw with h | h
        · exact absurd h.symm hpw
        · exact h
      have hfp : (if p.1 = w then (p.1, p.2 + 1) else p) = p := if_neg hpw
      have := ih hndt hwt
      rw [List.map_cons, hfp]
      simp only [sumCnt, List.map_cons, List.sum_cons] at this ⊢
      omega

theorem cnt_addWord {c : List (String × Nat)} {w : String}
    (hnd : (keys c).Nodup) (x : String) :
    cnt (addWord c w) x = cnt c x + if x = w then 1 else 0 := by
  unfold addWord
  by_cases hw : w ∈ keys c
  · rw [if_pos ((mem_keys_iff_any c w).mpr hw)]
    exact cnt_map_incr hnd hw x
  · rw [if_neg (fun hc => hw ((mem_keys_iff_any c w).mp hc))]
    rw [cnt_append]
    have hone : cnt [(w, 1)] x = if x = w then 1 else 0 := by
      by_cases hxw : x = w
      · simp [cnt, hxw]
      · have hwx : ¬ w = x := fun he => hxw he.symm
        simp [cnt, hwx, hxw]
    rw [hone]

theorem sumCnt_addWord {c : List (String × Nat)} {w : String}
    (hnd : (keys c).Nodup) :
    sumCnt (addWord c w) = sumCnt c + 1 := by
  unfold addWord
  by_cases hw : w ∈ keys c
  · rw [if_pos ((mem_keys_iff_any c w).mpr hw)]
    exact sum_map_incr hnd hw
  · rw [if_neg (fun hc => hw ((mem_keys_iff_any c w).mp hc))]
    simp [sumCnt]

theorem nodup_keys_addWord {c : List (String × Nat)} {w : String}
    (hnd : (keys c).Nodup) : (keys (addWord c w)).Nodup := by
  by_cases hw : w ∈ keys c
  · rw [keys_addWord_of_mem hw]; exact hnd
  · rw [keys_addWord_of_not_mem hw]
    refine List.Nodup.append hnd (List.nodup_singleton w) ?_
    intro a ha hb
    rw [List.mem_singleton] at hb
    exact hw (hb ▸ ha)

theorem mem_keys_addWord {c : List (String × Nat)} {w x : String} :
    x ∈ keys (addWord c w) ↔ x ∈ keys c ∨ x = w := by
  by_cases hw : w ∈ keys c
  · rw [keys_addWord_of_mem hw]
    constructor
    · exact Or.inl
    · rintro (h | rfl)
      · exact h
      · exact hw
  · rw [keys_addWord_of_not_mem hw]
    simp

theorem foldl_addWord_inv (ws : List String) :
    ∀ c : List (String × Nat), (keys c).Nodup →
      (keys (ws.foldl addWord c)).Nodup
      ∧ (∀ x, x ∈ keys (ws.foldl addWord c) ↔ x ∈ keys c ∨ x ∈ ws)
      ∧ (∀ x, cnt (ws.foldl addWord c) x = cnt c x + ws.count x)
      ∧ sumCnt (ws.foldl addWord c) = sumCnt c + ws.length := by
  induction ws with
  | nil => intro c hnd; simp [hnd]
  | cons w ws ih =>
    intro c hnd
    have hnd' := nodup_keys_addWord (w := w) hnd
    obtain ⟨i1, i2, i3, i4⟩ := ih (addWord c w) hnd'
    refine ⟨by simpa using i1, ?_, ?_, ?_⟩
    · intro x
      rw [List.foldl_cons, i2 x, mem_keys_addWord]
      constructor
      · rintro ((h | rfl) | h)
        · exact Or.inl h
        · exact Or.inr (List.mem_cons_self _ _)
        · exact Or.inr (List.mem_cons_of_mem _ h)
      · rintro (h | h)
        · exact Or.inl (Or.inl h)
        · rcases List.mem_cons.mp h with rfl | h
          · exact Or.inl (Or.inr rfl)
          · exact Or.inr h
    · intro x
      rw [List.foldl_cons, i3 x, cnt_addWord hnd x, List.count_cons]
      by_cases hxw : x = w
      · simp only [hxw, if_pos rfl, beq_self_eq_true, if_true]
        omega
      · have hbeq : (w == x) = false :=
          beq_eq_false_iff_ne.mpr (fun he => hxw he.symm)
        simp [hxw, hbeq]
    · rw [List.foldl_cons, i4, sumCnt_addWord hnd, List.length_cons]
      omega

theorem counter_nodup_keys (ws : List String) : (keys (counter ws)).Nodup :=
  (foldl_addWord_inv ws [] (by simp [keys])).1

theorem counter_mem_keys (ws : List String) (x : String) :
    x ∈ keys (counter ws) ↔ x ∈ ws := by
  have := (foldl_addWord_inv ws [] (by simp [keys])).2.1 x
  simpa [counter, keys] using this

theorem counter_cnt (ws : List String) (x : String) :
    cnt (counter ws) x = ws.count x := by
  have := (foldl_addWord_inv ws [] (by simp [keys])).2.2.1 x
  simpa [counter, cnt] using this

theorem counter_sumCnt (ws : List String) :
    sumCnt (counter ws) = ws.length := by
  have := (foldl_addWord_inv ws [] (by simp [keys])).2.2.2
  simpa [counter, sumCnt] using this

theorem cnt_of_pair_mem {c : List (String × Nat)} {w : String} {n : Nat}
    (hnd : (keys c).Nodup) (hm : (w, n) ∈ c) : cnt c w = n := by
  induction c with
  | nil => simp at hm
  | cons p c ih =>
    rw [keys_cons] at hnd
    rcases List.mem_cons.mp hm with rfl | hm'
    · have hnt : w ∉ keys c := (List.nodup_cons.mp hnd).1
      rw [cnt_cons, cnt_of_not_mem hnt]
      simp
    · have hw : w ∈ keys c := by
        exact List.mem_map.mpr ⟨(w, n), hm', rfl⟩
      have hpx : ¬ p.1 = w := by
        intro he
        exact (List.nodup_cons.mp hnd).1 (he ▸ hw)
      rw [cnt_cons, ih (List.nodup_cons.mp hnd).2 hm']
      simp [hpx]

theorem pair_mem_of_mem_keys {c : List (String × Nat)} {w : String}
    (hnd : (keys c).Nodup) (hw : w ∈ keys c) : (w, cnt c w) ∈ c := by
  obtain ⟨p, hp, hfst⟩ := List.mem_map.mp hw
  have hpair : (w, p.2) ∈ c := by
    have : p = (w, p.2) := by
      cases p
      simp at hfst
      simp [hfst]
    exact this ▸ hp
  have : cnt c w = p.2 := cnt_of_pair_mem hnd hpair
  rw [this]
  exact hpair

/-- C3: `word_freq = Counter(words)` maps exactly the distinct texts of the
input sequence (each listed once) to their occurrence counts: the key list
has no duplicates, a word is a key iff it occurs in the sequence, and every
stored entry's value is the number of occurrences of its key. -/
theorem counter_freq_spec (ws : List String) :
    (keys (counter ws)).Nodup
    ∧ (∀ w, w ∈ keys (counter ws) ↔ w ∈ ws)
    ∧ (∀ w n, (w, n) ∈ counter ws → n = ws.count w) := by
  refine ⟨counter_nodup_keys ws, counter_mem_keys ws, ?_⟩
  intro w n hmem
  have h1 : cnt (counter ws) w = n := cnt_of_pair_mem (counter_nodup_keys ws) hmem
  rw [← h1, counter_cnt]

/-- Witness for `counter_freq_spec` at the concrete input
`["a", "b", "a"]`: the entry stored for `"a"` carries count 2. -/
theorem counter_freq_spec_witness :
    2 = List.count "a" ["a", "b", "a"] :=
  (counter_freq_spec ["a", "b", "a"]).2.2 "a" 2 (by decide)

/-- C4: `unique_words` (line 212) contains a word iff its occurrence count
in the filtered word sequence is exactly 1. -/
theorem unique_words_spec (ws : List String) (w : String) :
    w ∈ uniqueWords ws ↔ ws.count w = 1 := by
  unfold uniqueWords
  constructor
  · intro h
    obtain ⟨p, hp, hfst⟩ := List.mem_map.mp h
    have hpf := List.mem_filter.mp hp
    have hone : p.2 = 1 := by simpa using hpf.2
    have hpair : (w, (1 : Nat)) ∈ counter ws := by
      have : p = (w, 1) := by
        cases p
        simp only at hfst hone
        rw [hfst, hone]
      exact this ▸ hpf.1
    have := (counter_freq_spec ws).2.2 w 1 hpair
    exact this.symm
  · intro h
    have hmemws : w ∈ ws := by
      have : 0 < ws.count w := by omega
      exact List.count_pos_iff.mp this
    have hkey : w ∈ keys (counter ws) := (counter_mem_keys ws w).mpr hmemws
    have hpair := pair_mem_of_mem_keys (counter_nodup_keys ws) hkey
    rw [counter_cnt ws w, h] at hpair
    refine List.mem_map.mpr ⟨(w, 1), List.mem_filter.mpr ⟨hpair, rfl⟩, rfl⟩

/-- C10: the counter conserves occurrences: the sum of all stored counts
equals the length of the input word sequence. -/
theorem counter_conserves_occurrences (ws : List String) :
    ((counter ws).map Prod.snd).sum = ws.length := by
  have := counter_sumCnt ws
  simpa [sumCnt] using this

theorem firstOcc_append_of_mem {ws : List String} {x : String}
    (h : x ∈ ws) (l : List String) :
    firstOcc (ws ++ l) x = firstOcc ws x := by
  induction ws with
  | nil => simp at h
  | cons w ws ih =>
    by_cases hwx : w = x
    · simp [firstOcc, hwx]
    · have hx : x ∈ ws := by
        rcases List.mem_cons.mp h with he | h'
        · exact absurd he.symm hwx
        · exact h'
      simp [firstOcc, hwx, ih hx]

theorem firstOcc_lt_length {ws : List String} {x : String} (h : x ∈ ws) :
    firstOcc ws x < ws.length := by
  induction ws with
  | nil => simp at h
  | cons w ws ih =>
    by_cases hwx : w = x
    · simp [firstOcc, hwx]
    · have hx : x ∈ ws := by
        rcases List.mem_cons.mp h with he | h'
        · exact absurd he.symm hwx
        · exact h'
      simp [firstOcc, hwx]
      exact ih hx

theorem firstOcc_append_of_not_mem {ws : List String} {x : String}
    (h : x ∉ ws) (l : List String) :
    firstOcc (ws ++ l) x = ws.length + firstOcc l x := by
  induction ws with
  | nil => simp [firstOcc]
  | cons w ws ih =>
    have hwx : ¬ w = x := fun he => h (he ▸ List.mem_cons_self w ws)
    have hx : x ∉ ws := fun hm => h (List.mem_cons_of_mem w hm)
    simp [firstOcc, hwx, ih hx]
    omega

theorem mem_ws_of_mem_counter {ws : List String} {p : String × Nat}
    (hp : p ∈ counter ws) : p.1 ∈ ws :=
  (counter_mem_keys ws p.1).mp (List.mem_map.mpr ⟨p, hp, rfl⟩)

theorem counter_keys_ordered (ws : List String) :
    (counter ws).Pairwise
      (fun p q => firstOcc ws p.1 < firstOcc ws q.1) := by
  induction ws using List.reverseRecOn with
  | nil => simp [counter]
  | append_singleton ws w ih =>
    have hstep : counter (ws ++ [w]) = addWord (counter ws) w := by
      simp [counter, List.foldl_append]
    rw [hstep]
    by_cases hw : w ∈ keys (counter ws)
    · unfold addWord
      rw [if_pos ((mem_keys_iff_any _ w).mpr hw)]
      rw [List.pairwise_map]
      refine ih.imp_of_mem ?_
      intro p q hp hq hlt
      have hp1 : (if p.1 = w then (p.1, p.2 + 1) else p).1 = p.1 := by
        split <;> rfl
      have hq1 : (if q.1 = w then (q.1, q.2 + 1) else q).1 = q.1 := by
        split <;> rfl
      rw [hp1, hq1,
        firstOcc_append_of_mem (mem_ws_of_mem_counter hp),
        firstOcc_append_of_mem (mem_ws_of_mem_counter hq)]
      exact hlt
    · unfold addWord
      rw [if_neg (fun hc => hw ((mem_keys_iff_any _ w).mp hc))]
      rw [List.pairwise_append]
      have hwws : w ∉ ws := fun hm => hw ((counter_mem_keys ws w).mpr hm)
      refine ⟨?_, List.pairwise_singleton _ _, ?_⟩
      · refine ih.imp_of_mem ?_
        intro p q hp hq hlt
        rw [firstOcc_append_of_mem (mem_ws_of_mem_counter hp),
          firstOcc_append_of_mem (mem_ws_of_mem_counter hq)]
        exact hlt
      · intro p hp q hq
        rw [List.mem_singleton] at hq
        subst hq
        simp only
        rw [firstOcc_append_of_mem (mem_ws_of_mem_counter hp),
          firstOcc_append_of_not_mem hwws]
        have h1 : firstOcc ws p.1 < ws.length :=
          firstOcc_lt_length (mem_ws_of_mem_counter hp)
        have h2 : firstOcc [w] w = 0 := by simp [firstOcc]
        omega

/-- Comparator embedding the decoration trick of `heapq.nlargest(n, items,
key=itemgetter(1))`: item `a` sorts before item `b` when `a`'s count is
larger, or the counts are equal and `a`'s original position is not later.
On the position-decorated item list this is a total order, so any sort by
it is the stable descending-by-count order `most_common` returns. -/
def mcLE (a b : Nat × (String × Nat)) : Bool :=
  decide (b.2.2 < a.2.2 ∨ (a.2.2 = b.2.2 ∧ a.1 ≤ b.1))

/-- `word_freq.most_common(5)` (line 208 of `src/nlp-examples.py`):
`heapq.nlargest(5, items, key=itemgetter(1))`, i.e. the stable sort of the
insertion-ordered item list by descending count, keeping the first five. -/
def mostCommon (n : Nat) (c : List (String × Nat)) : List (String × Nat) :=
  ((c.enum.mergeSort mcLE).map Prod.snd).take n

theorem mcLE_trans (a b c : Nat × (String × Nat)) :
    mcLE a b = true → mcLE b c = true → mcLE a c = true := by
  simp only [mcLE, decide_eq_true_eq]
  omega

theorem mcLE_total (a b : Nat × (String × Nat)) :
    (mcLE a b || mcLE b a) = true := by
  simp only [mcLE, Bool.or_eq_true, decide_eq_true_eq]
  omega

theorem mostCommon_length (n : Nat) (c : List (String × Nat)) :
    (mostCommon n c).length ≤ n := by
  simp [mostCommon]

theorem mostCommon_getElem (n : Nat) (c : List (String × Nat)) (i : Nat)
    (hi : i < (mostCommon n c).length)
    (hi' : i < (c.enum.mergeSort mcLE).length) :
    (mostCommon n c)[i] = (c.enum.mergeSort mcLE)[i].2 := by
  simp [mostCommon, List.getElem_take, List.getElem_map]

theorem mostCommon_lt_sort_length (n : Nat) (c : List (String × Nat))
    (i : Nat) (hi : i < (mostCommon n c).length) :
    i < (c.enum.mergeSort mcLE).length := by
  simp only [mostCommon, List.length_take, List.length_map] at hi
  omega

theorem mostCommon_sorted (n : Nat) (c : List (String × Nat)) :
    (mostCommon n c).Pairwise (fun p q => q.2 ≤ p.2) := by
  have hsorted : (c.enum.mergeSort mcLE).Pairwise (fun a b => mcLE a b = true) :=
    List.sorted_mergeSort mcLE_trans mcLE_total c.enum
  rw [List.pairwise_iff_getElem]
  intro i j hi hj hij
  have hi' := mostCommon_lt_sort_length n c i hi
  have hj' := mostCommon_lt_sort_length n c j hj
  rw [mostCommon_getElem n c i hi hi', mostCommon_getElem n c j hj hj']
  have hs := List.pairwise_iff_getElem.mp hsorted i j hi' hj' hij
  simp only [mcLE, decide_eq_true_eq] at hs
  omega

theorem mostCommon_stable (n : Nat) (c : List (String × Nat))
    (f : String → Nat) (hord : c.Pairwise (fun p q => f p.1 < f q.1)) :
    (mostCommon n c).Pairwise (fun p q => p.2 = q.2 → f p.1 < f q.1) := by
  have hsorted : (c.enum.mergeSort mcLE).Pairwise (fun a b => mcLE a b = true) :=
    List.sorted_mergeSort mcLE_trans mcLE_total c.enum
  have hperm : (c.enum.mergeSort mcLE).Perm c.enum :=
    List.mergeSort_perm c.enum mcLE
  have hnodupfst : ((c.enum.mergeSort mcLE).map Prod.fst).Nodup := by
    have h1 : (c.enum.map Prod.fst).Nodup := by
      rw [List.enum_map_fst]
      exact List.nodup_range c.length
    exact ((hperm.map Prod.fst).symm).nodup h1
  have hne : (c.enum.mergeSort mcLE).Pairwise (fun a b => a.1 ≠ b.1) :=
    List.pairwise_map.mp hnodupfst
  have hko : ∀ x ∈ c.enum, ∀ y ∈ c.enum, x.1 < y.1 →
      f x.2.1 < f y.2.1 := by
    have hpw := List.pairwise_iff_getElem.mp hord
    intro x hx y hy hlt
    obtain ⟨i, hi, rfl⟩ := List.getElem_of_mem hx
    obtain ⟨j, hj, rfl⟩ := List.getElem_of_mem hy
    have hi2 : i < c.length := by rwa [List.enum_length] at hi
    have hj2 : j < c.length := by rwa [List.enum_length] at hj
    simp only [List.getElem_enum] at hlt ⊢
    exact hpw i j hi2 hj2 hlt
  rw [List.pairwise_iff_getElem]
  intro i j hi hj hij
  have hi' := mostCommon_lt_sort_length n c i hi
  have hj' := mostCommon_lt_sort_length n c j hj
  rw [mostCommon_getElem n c i hi hi', mostCommon_getElem n c j hj hj']
  intro hcnt
  have hs := List.pairwise_iff_getElem.mp hsorted i j hi' hj' hij
  have hneq := List.pairwise_iff_getElem.mp hne i j hi' hj' hij
  simp only [mcLE, decide_eq_true_eq] at hs
  have hposlt : (c.enum.mergeSort mcLE)[i].1 < (c.enum.mergeSort mcLE)[j].1 := by
    rcases hs with h | ⟨heq, hle⟩
    · omega
    · omega
  exact hko _ (hperm.mem_iff.mp (List.getElem_mem hi'))
    _ (hperm.mem_iff.mp (List.getElem_mem hj')) hposlt

/-- C1: `word_freq.most_common(5)` (line 208) returns at most five entries,
in order of non-increasing count, and entries with equal counts appear in
first-seen order of their word in the input sequence. -/
theorem most_common_spec (ws : List String) :
    (mostCommon 5 (counter ws)).length ≤ 5
    ∧ (mostCommon 5 (counter ws)).Pairwise (fun p q => q.2 ≤ p.2)
    ∧ (mostCommon 5 (counter ws)).Pairwise
        (fun p q => p.2 = q.2 → firstOcc ws p.1 < firstOcc ws q.1) :=
  ⟨mostCommon_length 5 (counter ws),
   mostCommon_sorted 5 (counter ws),
   mostCommon_stable 5 (counter ws) (firstOcc ws) (counter_keys_ordered ws)⟩

/-- Token record: the attributes of a spaCy token that the script reads or
writes (`text`, `idx`, `is_alpha`, `is_punct`, `is_stop`, `lemma_`, `tag_`,
`is_sent_start`).  A doc is modelled as the list of its tokens; `token.i`
is the token's position in that list. -/
structure Token where
  text : String
  idx : Nat
  isAlpha : Bool
  isPunct : Bool
  isStop : Bool
  lemma_ : String
  tag_ : String
  isSentStart : Bool
deriving DecidableEq

/-- Effect of the assignment `doc[token.i + 1].is_sent_start = True`. -/
def markSentStart (t : Token) : Token :=
  { t with isSentStart := true }

/-- The pipeline component `set_custom_boundaries` (lines 59-65 of
`src/nlp-examples.py`):

    for token in doc[:-1]:
        if token.text == "...":
            doc[token.i + 1].is_sent_start = True
    return doc

The loop walks the tokens up to (excluding) the last one and marks the
successor of every `"..."` token, in place.  The recursion carries the
possibly-marked successor into the next step exactly as the in-place
update does (only `is_sent_start` is ever written, so the `token.text`
the loop reads is unaffected). -/
def setCustomBoundaries : List Token → List Token
  | [] => []
  | [t] => [t]
  | t :: u :: rest =>
    if t.text = "..." then t :: setCustomBoundaries (markSentStart u :: rest)
    else t :: setCustomBoundaries (u :: rest)
termination_by doc => doc.length
decreasing_by all_goals simp [markSentStart]

/-- Marking rule applied to a token `u` given the token preceding it
(`none` when `u` is the first token). -/
def boundaryMark (prev : Option Token) (u : Token) : Token :=
  match prev with
  | some t => if t.text = "..." then markSentStart u else u
  | none => u

theorem scb_unfold_mark {t : Token} (u : Token) (rest : List Token)
    (htt : t.text = "...") :
    setCustomBoundaries (t :: u :: rest)
      = t :: setCustomBoundaries (markSentStart u :: rest) := by
  simp [setCustomBoundaries, htt]

theorem scb_unfold_skip {t : Token} (u : Token) (rest : List Token)
    (htt : ¬ t.text = "...") :
    setCustomBoundaries (t :: u :: rest)
      = t :: setCustomBoundaries (u :: rest) := by
  simp [setCustomBoundaries, htt]

theorem setCustomBoundaries_length (doc : List Token) :
    (setCustomBoundaries doc).length = doc.length := by
  induction doc using setCustomBoundaries.induct with
  | case1 => simp [setCustomBoundaries]
  | case2 t => simp [setCustomBoundaries]
  | case3 t u rest htt ih =>
    rw [scb_unfold_mark u rest htt]
    simp only [List.length_cons, ih]
  | case4 t u rest htt ih =>
    rw [scb_unfold_skip u rest htt]
    simp only [List.length_cons, ih]

theorem setCustomBoundaries_getElem (doc : List Token) :
    ∀ j, (setCustomBoundaries doc)[j]? =
      (doc[j]?).map (boundaryMark (if j = 0 then none else doc[j - 1]?)) := by
  induction doc using setCustomBoundaries.induct with
  | case1 =>
    intro j
    simp [setCustomBoundaries]
  | case2 t =>
    intro j
    cases j with
    | zero => simp [setCustomBoundaries, boundaryMark]
    | succ k => simp [setCustomBoundaries]
  | case3 t u rest htt ih =>
    intro j
    rw [scb_unfold_mark u rest htt]
    cases j with
    | zero => simp [boundaryMark]
    | succ k =>
      rw [List.getElem?_cons_succ, ih k]
      cases k with
      | zero =>
        simp [boundaryMark, markSentStart, htt]
      | succ m =>
        simp only [List.getElem?_cons_succ, Nat.succ_sub_one,
          Nat.add_eq_zero, Nat.succ_ne_zero, and_false, if_false]
        cases m with
        | zero =>
          cases h : rest[0]? <;>
            simp [boundaryMark, markSentStart]
        | succ s =>
          simp
  | case4 t u rest htt ih =>
    intro j
    rw [scb_unfold_skip u rest htt]
    cases j with
    | zero => simp [boundaryMark]
    | succ k =>
      rw [List.getElem?_cons_succ, ih k]
      cases k with
      | zero =>
        simp [boundaryMark, htt]
      | succ m =>
        simp only [List.getElem?_cons_succ, Nat.succ_sub_one,
          Nat.add_eq_zero, Nat.succ_ne_zero, and_false, if_false]

theorem boundaryMark_cases (p : Option Token) (u : Token) :
    boundaryMark p u = u ∨ boundaryMark p u = markSentStart u := by
  cases p with
  | none => exact Or.inl rfl
  | some t =>
    by_cases h : t.text = "..."
    · exact Or.inr (by simp [boundaryMark, h])
    · exact Or.inl (by simp [boundaryMark, h])

/-- C2: whenever a token whose text is the delimiter `"..."` has a
successor (equivalently, its index `i` satisfies `i < len(doc) - 1`, so the
loop body of `set_custom_boundaries` visits it), the token at index
`i + 1` of the returned document has `is_sent_start` set to `True`. -/
theorem set_custom_boundaries_marks (doc : List Token) (i : Nat)
    (t u : Token) (hat : doc[i]? = some t) (hnext : doc[i + 1]? = some u)
    (htxt : t.text = "...") :
    ∃ v, (setCustomBoundaries doc)[i + 1]? = some v
      ∧ v.isSentStart = true := by
  refine ⟨boundaryMark (some t) u, ?_, ?_⟩
  · rw [setCustomBoundaries_getElem doc (i + 1), hnext]
    simp [hat]
  · simp [boundaryMark, htxt, markSentStart]

/-- Concrete token builder used by witnesses. -/
def tok (s : String) : Token :=
  { text := s, idx := 0, isAlpha := false, isPunct := false, isStop := false,
    lemma_ := s, tag_ := "", isSentStart := false }

/-- Witness for `set_custom_boundaries_marks` on the two-token document
whose first token is the delimiter. -/
theorem set_custom_boundaries_marks_witness :
    ∃ v, (setCustomBoundaries [tok "...", tok "never"])[0 + 1]? = some v
      ∧ v.isSentStart = true :=
  set_custom_boundaries_marks [tok "...", tok "never"] 0 (tok "...")
    (tok "never") rfl rfl rfl

/-- C8: `set_custom_boundaries` is total and in-range on every document:
the scan `for token in doc[:-1]` leaves the length unchanged (no access
past the end ever occurs, since the successor index of a visited token is
at most the last index), and on the empty and the one-token document it is
the identity. -/
theorem set_custom_boundaries_safe (doc : List Token) :
    (setCustomBoundaries doc).length = doc.length
    ∧ (doc.length ≤ 1 → setCustomBoundaries doc = doc) := by
  refine ⟨setCustomBoundaries_length doc, ?_⟩
  intro h
  cases doc with
  | nil => simp [setCustomBoundaries]
  | cons t rest =>
    cases rest with
    | nil => simp [setCustomBoundaries]
    | cons u rest2 => simp at h

/-- Witness for `set_custom_boundaries_safe` on a one-token document. -/
theorem set_custom_boundaries_safe_witness :
    (setCustomBoundaries [tok "a"]).length = 1
    ∧ setCustomBoundaries [tok "a"] = [tok "a"] :=
  ⟨(set_custom_boundaries_safe [tok "a"]).1,
   (set_custom_boundaries_safe [tok "a"]).2 (by decide)⟩

/-- C9: `set_custom_boundaries` returns the document it was given, token
for token: the token at every index `j` keeps its `text`, `idx`,
`is_alpha`, `is_punct`, `is_stop`, `lemma_` and `tag_` attributes; its
`is_sent_start` is forced to `True` when the preceding token's text is
`"..."`, and the token is entirely unchanged when `j = 0` or the preceding
token's text is not `"..."`. -/
theorem set_custom_boundaries_frame (doc : List Token) (j : Nat) (u : Token)
    (hu : doc[j]? = some u) :
    ∃ v, (setCustomBoundaries doc)[j]? = some v
      ∧ v.text = u.text ∧ v.idx = u.idx ∧ v.isAlpha = u.isAlpha
      ∧ v.isPunct = u.isPunct ∧ v.isStop = u.isStop
      ∧ v.lemma_ = u.lemma_ ∧ v.tag_ = u.tag_
      ∧ (∀ t, j ≠ 0 → doc[j - 1]? = some t → t.text = "..." →
          v.isSentStart = true)
      ∧ ((j = 0 ∨ ∀ t, doc[j - 1]? = some t → t.text ≠ "...") → v = u) := by
  refine ⟨boundaryMark (if j = 0 then none else doc[j - 1]?) u, ?_, ?_⟩
  · rw [setCustomBoundaries_getElem doc j, hu]
    rfl
  · have hfields : ∀ p : Option Token,
        (boundaryMark p u).text = u.text
        ∧ (boundaryMark p u).idx = u.idx
        ∧ (boundaryMark p u).isAlpha = u.isAlpha
        ∧ (boundaryMark p u).isPunct = u.isPunct
        ∧ (boundaryMark p u).isStop = u.isStop
        ∧ (boundaryMark p u).lemma_ = u.lemma_
        ∧ (boundaryMark p u).tag_ = u.tag_ := by
      intro p
      rcases boundaryMark_cases p u with h | h <;>
        rw [h] <;> simp [markSentStart]
    obtain ⟨f1, f2, f3, f4, f5, f6, f7⟩ :=
      hfields (if j = 0 then none else doc[j - 1]?)
    refine ⟨f1, f2, f3, f4, f5, f6, f7, ?_, ?_⟩
    · intro t hj hprev htxt
      rw [if_neg hj, hprev]
      simp [boundaryMark, htxt, markSentStart]
    · rintro (rfl | hno)
      · rfl
      · by_cases hj : j = 0
        · simp [hj, boundaryMark]
        · rw [if_neg hj]
          cases hprev : doc[j - 1]? with
          | none => rfl
          | some t => simp [boundaryMark, hno t hprev]

/-- Witness for `set_custom_boundaries_frame`: at index 1 of a document
with no delimiter the token is returned unchanged. -/
theorem set_custom_boundaries_frame_witness :
    ∃ v, (setCustomBoundaries [tok "a", tok "b"])[1]? = some v
      ∧ v = tok "b" := by
  obtain ⟨v, h1, _, _, _, _, _, _, _, _, hid⟩ :=
    set_custom_boundaries_frame [tok "a", tok "b"] 1 (tok "b") rfl
  refine ⟨v, h1, hid (Or.inr ?_)⟩
  intro t ht
  have hta : tok "a" = t := by simpa using ht
  rw [← hta]
  decide

/-- The filtered word list of lines 201-205 of `src/nlp-examples.py`:

    words = [
        token.text
        for token in complete_doc
        if not token.is_stop and not token.is_punct
    ]
-/
def words (doc : List Token) : List String :=
  (doc.filter (fun t => !t.isStop && !t.isPunct)).map Token.text

/-- Lexeme consistency of a document: in spaCy, `is_stop` and `is_punct`
are lexeme attributes, i.e. functions of the token's text alone (the
spec's stop-word list is "a static external list" keyed by the word), so
within one processed document tokens with equal text carry equal flags. -/
def LexemeConsistent (doc : List Token) : Prop :=
  ∀ t ∈ doc, ∀ u ∈ doc, t.text = u.text →
    t.isStop = u.isStop ∧ t.isPunct = u.isPunct

/-- C5: for every token of a (lexeme-consistent) document, the token's
text appears in the counted word list `words` iff the token's `is_stop`
and `is_punct` flags are both false. -/
theorem words_filter_spec (doc : List Token) (hlex : LexemeConsistent doc)
    (t : Token) (ht : t ∈ doc) :
    t.text ∈ words doc ↔ (t.isStop = false ∧ t.isPunct = false) := by
  constructor
  · intro hmem
    obtain ⟨u, hu, htext⟩ := List.mem_map.mp hmem
    have huf := List.mem_filter.mp hu
    have hflags : u.isStop = false ∧ u.isPunct = false := by
      have h2 := huf.2
      simp only [Bool.and_eq_true, Bool.not_eq_true'] at h2
      exact h2
    obtain ⟨hs, hp⟩ := hlex t ht u huf.1 htext.symm
    rw [hs, hp]
    exact hflags
  · rintro ⟨h1, h2⟩
    refine List.mem_map.mpr ⟨t, List.mem_filter.mpr ⟨ht, ?_⟩, rfl⟩
    simp [h1, h2]

theorem lexeme_consistent_singleton (u : Token) : LexemeConsistent [u] := by
  intro t ht v hv _
  rw [List.mem_singleton] at ht hv
  rw [ht, hv]
  exact ⟨rfl, rfl⟩

/-- Witness for `words_filter_spec` on a one-token document. -/
theorem words_filter_spec_witness :
    (tok "good").text ∈ words [tok "good"]
      ↔ ((tok "good").isStop = false ∧ (tok "good").isPunct = false) :=
  words_filter_spec [tok "good"] (lexeme_consistent_singleton (tok "good"))
    (tok "good") (List.mem_singleton.mpr rfl)

/-- Python exception surface of the loading block: `OSError` (raised by
`spacy.load` when the model is not installed locally) or any other
exception. -/
inductive PyErr where
  | osError : PyErr
  | other : String → PyErr
deriving DecidableEq

/-- Outcome of running the loading block of lines 8-14: the final disk
state, how many times `download` ran, and either the loaded pipeline or
the exception that propagates uncaught out of the block. -/
structure LoadResult (σ π : Type) where
  env : σ
  downloads : Nat
  outcome : Except PyErr π

/-- Lines 8-14 of `src/nlp-examples.py`:

    try:
        nlp = spacy.load("en_core_web_sm")
    except OSError:
        from spacy.cli import download
        download("en_core_web_sm")
        nlp = spacy.load("en_core_web_sm")

`load` models `spacy.load` as a function of the disk state, `download`
models the effect of `spacy.cli.download` on the disk state.  The
`except` clause matches `OSError` only: any other exception of the first
load, and any exception of the retried load, propagates. -/
def ensureModel {σ π : Type} (load : σ → Except PyErr π)
    (download : σ → σ) (env : σ) : LoadResult σ π :=
  match load env with
  | Except.ok p => ⟨env, 0, Except.ok p⟩
  | Except.error PyErr.osError => ⟨download env, 1, load (download env)⟩
  | Except.error (PyErr.other m) => ⟨env, 0, Except.error (PyErr.other m)⟩

/-- C6: the loading block handles exactly one failure mode.  If the first
load succeeds, no download happens and the pipeline is the first load's.
If the first load raises `OSError`, the model is downloaded exactly once
and the load retried exactly once, whatever that retry returns.  Any
other exception is not caught: it propagates with no download. -/
theorem ensure_model_spec {σ π : Type} (load : σ → Except PyErr π)
    (download : σ → σ) (env : σ) :
    (∀ p, load env = Except.ok p →
      ensureModel load download env = ⟨env, 0, Except.ok p⟩)
    ∧ (load env = Except.error PyErr.osError →
      ensureModel load download env
        = ⟨download env, 1, load (download env)⟩)
    ∧ (∀ m, load env = Except.error (PyErr.other m) →
      ensureModel load download env
        = ⟨env, 0, Except.error (PyErr.other m)⟩) := by
  refine ⟨?_, ?_, ?_⟩
  · intro p h
    simp [ensureModel, h]
  · intro h
    simp [ensureModel, h]
  · intro m h
    simp [ensureModel, h]

/-- Disk state for the witness: whether the model is installed. -/
def loadW : Bool → Except PyErr Unit := fun installed =>
  if installed then Except.ok () else Except.error PyErr.osError

/-- Download effect for the witness: installs the model. -/
def downloadW : Bool → Bool := fun _ => true

/-- Witness for `ensure_model_spec`: a missing model is downloaded once
and the retried load succeeds. -/
theorem ensure_model_spec_witness :
    ensureModel loadW downloadW false = ⟨true, 1, Except.ok ()⟩ := by
  have h := (ensure_model_spec loadW downloadW false).2.1 rfl
  simpa [loadW, downloadW] using h

/-- Global variables of the script that ever hold a loaded pipeline. -/
inductive PipelineVar where
  | nlp : PipelineVar
  | customNlp : PipelineVar
deriving DecidableEq

/-- The `spacy.load("en_core_web_sm")` results bound by the script, in
program order, by the global each is bound to: line 9 or 14 binds `nlp`
(once, whichever branch of the try/except runs), line 75 binds
`custom_nlp`, line 120 rebinds `custom_nlp`. -/
def scriptLoadEvents : List PipelineVar :=
  [PipelineVar.nlp, PipelineVar.customNlp, PipelineVar.customNlp]

/-- Number of distinct pipeline handles the script holds after its first
`k` load events: a global stays bound from its first load on (`nlp` is
still used at lines 82, 118 and 199, after `custom_nlp` is bound at line
75), so the live handles are the distinct globals bound so far. -/
def liveHandles (k : Nat) : Nat :=
  ((scriptLoadEvents.take k).dedup).length

/-- Counterexample to C7 as stated: after the load at line 75 the script
holds two loaded pipeline objects at once (`nlp` from line 9/14 and
`custom_nlp` from line 75), not at most one. -/
theorem liveHandles_two : liveHandles 2 = 2 := by decide

/-- C7 amended: the script's only global pipeline state is the two
handles `nlp` and `custom_nlp`: it never holds more than two loaded
pipeline objects, exactly one before line 75 and exactly two thereafter
(line 120 rebinds `custom_nlp` rather than adding a third handle). -/
theorem script_pipeline_handles :
    (∀ k, liveHandles k ≤ 2) ∧ liveHandles 1 = 1 ∧ liveHandles 3 = 2 := by
  refine ⟨?_, by decide, by decide⟩
  intro k
  match k with
  | 0 => decide
  | 1 => decide
  | 2 => decide
  | n + 3 =>
    have h : scriptLoadEvents.take (n + 3) = scriptLoadEvents := by
      apply List.take_of_length_le
      simp [scriptLoadEvents]
    rw [liveHandles, h]
    decide

end NlpEx
